import Mathlib

/-!
Shallow embedding of the resume parser (`src/app.py`) and its scorer.

The core under verification is `extract_details` (app.py lines 45-158) and the
section-completeness criterion of `calculate_resume_score` (lines 186-234).
Python strings are modelled as Lean `String` (`List Char` data); Python's
`str.strip`, `str.split`, `str.upper`, `str.splitlines`, `"\n".join`,
`str.replace(c, '')` and the two `re.findall` patterns are embedded as
executable functions below, restricted to the ASCII behaviour the inputs
exercise.  The spaCy NLP model is an external collaborator: it is passed in as
a recognizer function `String → List Entity`.
-/


/-- Python whitespace class (ASCII model): the characters matched by `\s`
and stripped by `str.strip()`. -/
def pyIsSpace (c : Char) : Bool :=
  c = ' ' || c = '\t' || c = '\n' || c = '\r' || c = '\x0b' || c = '\x0c'

/-- Line-break characters of Python `str.splitlines` (ASCII model). -/
def pyIsLineBreak (c : Char) : Bool :=
  c = '\n' || c = '\r' || c = '\x0b' || c = '\x0c' ||
  c = '\x1c' || c = '\x1d' || c = '\x1e'

/-- Split a character list at every character satisfying `p`, keeping empty
segments (as Python `str.split(sep)` does). -/
def splitPredData (p : Char → Bool) : List Char → List (List Char)
  | [] => [[]]
  | x :: xs =>
    if p x then [] :: splitPredData p xs
    else
      match splitPredData p xs with
      | [] => [[x]]
      | g :: gs => (x :: g) :: gs

/-- Data-level Python `str.strip()`: drop leading and trailing whitespace. -/
def stripData (l : List Char) : List Char :=
  ((l.dropWhile pyIsSpace).reverse.dropWhile pyIsSpace).reverse

/-- Python `str.strip()`. -/
def pyStrip (s : String) : String := String.mk (stripData s.data)

/-- Python `str.upper()` (ASCII model, character-wise; length-preserving). -/
def pyUpper (s : String) : String := String.mk (s.data.map Char.toUpper)

/-- Python `str.split()` with no argument: split on whitespace runs,
discarding empty pieces. -/
def pySplitWs (s : String) : List String :=
  ((splitPredData pyIsSpace s.data).map String.mk).filter (· ≠ "")

/-- Python `str.split(sep)` for a one-character separator. -/
def pySplitChar (c : Char) (s : String) : List String :=
  (splitPredData (· = c) s.data).map String.mk

/-- Python `str.replace(c, '')`: delete every occurrence of character `c`. -/
def removeChar (c : Char) (s : String) : String :=
  String.mk (s.data.filter (fun x => x ≠ c))

/-- Python `sep.join(pieces)`. -/
def pyJoin (sep : String) : List String → String
  | [] => ""
  | [a] => a
  | a :: b :: rest => a ++ sep ++ pyJoin sep (b :: rest)

/-- Whether `pat` occurs at the start of `l` (substring matching helper). -/
def listPre : List Char → List Char → Bool
  | [], _ => true
  | _ :: _, [] => false
  | p :: ps, c :: cs => p == c && listPre ps cs

/-- Whether `pat` occurs anywhere inside `l`: Python's `pat in s`. -/
def listSub (pat : List Char) : List Char → Bool
  | [] => pat.isEmpty
  | c :: cs => listPre pat (c :: cs) || listSub pat cs

/-- Python `str.isupper()` (ASCII model): at least one cased character and
no lowercase cased character. -/
def pyIsUpper (s : String) : Bool :=
  s.data.any Char.isAlpha && s.data.all (fun c => !c.isAlpha || c.isUpper)

/-- Helper for `pyIsTitle`: scan tracking whether the previous character was
cased; uppercase letters may only start a cased run, lowercase letters may
only continue one. -/
def titleScan : Bool → List Char → Bool
  | _, [] => true
  | prevCased, c :: rest =>
    if c.isUpper then !prevCased && titleScan true rest
    else if c.isLower then prevCased && titleScan true rest
    else titleScan false rest

/-- Python `str.istitle()` (ASCII model). -/
def pyIsTitle (s : String) : Bool :=
  s.data.any Char.isAlpha && titleScan false s.data

/-- Character class of the email pattern `[\w\.-]`: word characters
(ASCII model: alphanumeric or underscore), dot, hyphen. -/
def emailChar (c : Char) : Bool :=
  c.isAlphanum || c = '_' || c = '.' || c = '-'

/-- Character class of the phone pattern `[\d\-\s]`. -/
def phoneClass (c : Char) : Bool :=
  c.isDigit || c = '-' || pyIsSpace c

/-- Match of `[\w\.-]+@[\w\.-]+` at one start position.  At a start position
inside the class run, the backtracking regex can only place `@` right after
the maximal run (since `@` is not in the class), so the position matches
exactly when the maximal class run from it is followed by `@` and at least
one further class character. -/
def emailAt (cs : List Char) : Option (List Char) :=
  match cs with
  | [] => none
  | c :: rest =>
    if emailChar c then
      match (c :: rest).dropWhile emailChar with
      | '@' :: r2 =>
        match r2.takeWhile emailChar with
        | [] => none
        | d :: ds => some ((c :: rest).takeWhile emailChar ++ '@' :: d :: ds)
      | _ => none
    else none

/-- First match of `re.findall(r'[\w\.-]+@[\w\.-]+', text)`, scanning start
positions left to right. -/
def findEmail : List Char → Option String
  | [] => none
  | c :: rest =>
    match emailAt (c :: rest) with
    | some m => some (String.mk m)
    | none => findEmail rest

/-- Greedy exponent choice for `[\d\-\s]{8,}`: the largest index `i ≥ 8`
into the maximal class run whose character is a digit (the final `\d` of the
pattern consumes that character; greedy matching picks the largest such). -/
def bestK (run : List Char) : Option Nat :=
  (List.range run.length).foldl
    (fun acc i => if 8 ≤ i && (run.getD i ' ').isDigit then some i else acc) none

/-- Match of `\d[\d\-\s]{8,}\d` at the start of the list, or `none`. -/
def phoneCore : List Char → Option (List Char)
  | [] => none
  | c :: rest =>
    if c.isDigit then
      match bestK (rest.takeWhile phoneClass) with
      | some i =>
        some (c :: ((rest.takeWhile phoneClass).take i ++
                    [(rest.takeWhile phoneClass).getD i ' ']))
      | none => none
    else none

/-- Match of `\+?\d[\d\-\s]{8,}\d` at the start of the list: a leading `+`
must be followed by the digit pattern (backtracking to the empty option would
require `\d` to match `+`, which fails). -/
def phoneAt (cs : List Char) : Option (List Char) :=
  match cs with
  | '+' :: rest => (phoneCore rest).map (fun m => '+' :: m)
  | _ => phoneCore cs

/-- First match of `re.findall(r'\+?\d[\d\-\s]{8,}\d', text)`, scanning
start positions left to right. -/
def findPhone : List Char → Option String
  | [] => none
  | c :: rest =>
    match phoneAt (c :: rest) with
    | some m => some (String.mk m)
    | none => findPhone rest

/-- A named entity produced by the external NLP recognizer (spaCy `ent`):
its text span and its label (`ent.label_`). -/
structure Entity where
  text : String
  label : String
deriving DecidableEq

/-- Python value appearing in the details dictionary: either a string or a
list of strings (the Skills field becomes a list). -/
inductive PyVal where
  | vstr (s : String)
  | vlist (l : List String)
deriving DecidableEq

/-- The details record: the Python dict built by `extract_details`, with its
nine fixed keys (app.py lines 59-69). -/
structure Details where
  name : String
  email : String
  phone : String
  profile : PyVal
  experience : PyVal
  education : PyVal
  skills : PyVal
  projects : PyVal
  position : PyVal
deriving DecidableEq

/-- Python `details[key]` / `details.get(key)` on the nine fixed keys. -/
def Details.get (d : Details) : String → Option PyVal
  | "Name" => some (.vstr d.name)
  | "Email" => some (.vstr d.email)
  | "Phone" => some (.vstr d.phone)
  | "Profile" => some d.profile
  | "Professional Experience" => some d.experience
  | "Education" => some d.education
  | "Skills" => some d.skills
  | "Projects" => some d.projects
  | "Position of Responsibility" => some d.position
  | _ => none

/-- The nine keys of the details dict. -/
def allDetailKeys : List String :=
  ["Name", "Email", "Phone", "Profile", "Professional Experience", "Education",
   "Skills", "Projects", "Position of Responsibility"]

/-- The section keyword table (app.py lines 102-109), in declaration order. -/
def sectionKeywords : List (String × String) :=
  [("PROFILE", "Profile"),
   ("PROFESSIONAL EXPERIENCE", "Professional Experience"),
   ("EDUCATION", "Education"),
   ("SKILLS", "Skills"),
   ("PROJECTS", "Projects"),
   ("POSITION OF RESPONSIBILITY", "Position of Responsibility")]

/-- The canonical section identifiers of the catalog. -/
def canonicalSections : List String := sectionKeywords.map Prod.snd

/-- Header test for one keyword (app.py line 121): the keyword occurs in the
uppercased line and the uppercased line is shorter than `len(keyword) + 15`. -/
def headerMatch (kw line : String) : Bool :=
  listSub kw.data (pyUpper line).data && decide ((pyUpper line).length < kw.length + 15)

/-- First keyword (in table order) matching the line, mapped to its
canonical section identifier (the loop of app.py lines 119-124). -/
def findHeader (line : String) : Option String :=
  (sectionKeywords.find? (fun kw => headerMatch kw.1 line)).map Prod.snd

/-- Per-section accumulated content lines (`current_section_data`). -/
structure SecData where
  profile : List String
  experience : List String
  education : List String
  skills : List String
  projects : List String
  position : List String
deriving DecidableEq

/-- The empty accumulator (`{key: [] for key in ...}`). -/
def SecData.empty : SecData := ⟨[], [], [], [], [], []⟩

/-- Append lines to the list held under a canonical section key.  `findHeader`
only produces the six catalog identifiers, so the fall-through is unreachable
during extraction. -/
def addLines (d : SecData) (key : String) (ls : List String) : SecData :=
  if key = "Profile" then { d with profile := d.profile ++ ls }
  else if key = "Professional Experience" then { d with experience := d.experience ++ ls }
  else if key = "Education" then { d with education := d.education ++ ls }
  else if key = "Skills" then { d with skills := d.skills ++ ls }
  else if key = "Projects" then { d with projects := d.projects ++ ls }
  else if key = "Position of Responsibility" then { d with position := d.position ++ ls }
  else d

/-- Map, strip and filter applied to the pieces of a skills split
(`[s.strip() for s in line.split(c) if s.strip()]`). -/
def splitClean (c : Char) (s : String) : List String :=
  ((pySplitChar c s).map pyStrip).filter (· ≠ "")

/-- The tokens a single content line contributes to the Skills list
(app.py lines 128-142): delete bullets and hyphens, strip; if the result is
nonempty, split on semicolons when one is present, else on commas when one is
present, else keep the whole cleaned line. -/
def skillTokens (line : String) : List String :=
  let cleaned := pyStrip (removeChar '-' (removeChar '•' line))
  if cleaned = "" then []
  else if cleaned.data.contains ';' then splitClean ';' cleaned
  else if cleaned.data.contains ',' then splitClean ',' cleaned
  else [cleaned]

/-- One iteration of the routing loop (app.py lines 115-145): a line matching
a keyword becomes the current section and contributes no content; otherwise,
when a section is active, the line (or its skill tokens) is appended to it. -/
def routeLine (st : Option String × SecData) (line : String) : Option String × SecData :=
  match findHeader line with
  | some key => (some key, st.2)
  | none =>
    match st.1 with
    | none => st
    | some key =>
      if key = "Skills" then
        let cleaned := pyStrip (removeChar '-' (removeChar '•' line))
        if cleaned = "" then st
        else if cleaned.data.contains ';' then
          (some key, addLines st.2 "Skills" (splitClean ';' cleaned))
        else if cleaned.data.contains ',' then
          (some key, addLines st.2 "Skills" (splitClean ',' cleaned))
        else (some key, addLines st.2 "Skills" [cleaned])
      else (some key, addLines st.2 key [line])

/-- Strict lexicographic order on character lists by code point: Python's
`<` on strings. -/
def lexLt : List Char → List Char → Bool
  | [], [] => false
  | [], _ :: _ => true
  | _ :: _, [] => false
  | a :: as, b :: bs => decide (a < b) || (a == b && lexLt as bs)

/-- Python's `<` on strings. -/
def strLt (a b : String) : Bool := lexLt a.data b.data

/-- Insert a string into a list kept in increasing `strLt` order. -/
def insertSorted (a : String) : List String → List String
  | [] => [a]
  | b :: bs => if strLt a b then a :: b :: bs else b :: insertSorted a bs

/-- Insertion sort by `strLt`. -/
def sortStrs : List String → List String
  | [] => []
  | a :: as => insertSorted a (sortStrs as)

/-- Python `sorted(list(set(xs)))` on strings: distinct elements in
increasing lexicographic order. -/
def pySortedSet (l : List String) : List String :=
  sortStrs l.dedup

/-- Finalization of an ordinary section (app.py lines 148-156): join the
collected lines with newlines, or keep the sentinel when nothing was
collected. -/
def finalizeStr (l : List String) : PyVal :=
  if l = [] then .vstr "Not found" else .vstr (pyJoin "\n" l)

/-- Finalization of the Skills section: sorted deduplicated list, or the
sentinel when nothing was collected. -/
def finalizeSkills (l : List String) : PyVal :=
  if l = [] then .vstr "Not found" else .vlist (pySortedSet l)

/-- The stripped non-empty lines of the input
(`[line.strip() for line in text.splitlines() if line.strip()]`). -/
def cleanedLines (text : String) : List String :=
  (((splitPredData pyIsLineBreak text.data).map String.mk).map pyStrip).filter (· ≠ "")

/-- PERSON entities of one line whose text has at least two
whitespace-separated words (app.py lines 88-91). -/
def personCands (ner : String → List Entity) (line : String) : List String :=
  ((ner line).filter
    (fun e => decide (e.label = "PERSON") && decide (2 ≤ (pySplitWs e.text).length))).map
    Entity.text

/-- The first line as a strong name candidate when it is entirely uppercase
or title-case and has at most four words (app.py line 93). -/
def firstLineCand (lines : List String) : List String :=
  match lines with
  | [] => []
  | l0 :: _ =>
    if (pyIsUpper l0 || pyIsTitle l0) && decide ((pySplitWs l0).length ≤ 4) then [l0] else []

/-- Name candidates from the first five cleaned lines, in line order, with
recognizer hits before the first-line fallback (app.py lines 85-94). -/
def nameCandidates (ner : String → List Entity) (lines : List String) : List String :=
  (List.range (min 5 lines.length)).flatMap
    (fun i => personCands ner (lines.getD i "") ++ if i = 0 then firstLineCand lines else [])

/-- The core extractor (app.py lines 45-158). -/
def extract_details (text : String) (ner : String → List Entity) : Details :=
  let lines := cleanedLines text
  let data := (lines.foldl routeLine (none, SecData.empty)).2
  { name := match nameCandidates ner lines with
            | [] => "Not found"
            | c :: _ => c
    email := (findEmail text.data).getD "Not found"
    phone := (findPhone text.data).getD "Not found"
    profile := finalizeStr data.profile
    experience := finalizeStr data.experience
    education := finalizeStr data.education
    skills := finalizeSkills data.skills
    projects := finalizeStr data.projects
    position := finalizeStr data.position }

/-- The fully-sentinel record: the initial dict of app.py lines 59-69. -/
def sentinelDetails : Details :=
  { name := "Not found", email := "Not found", phone := "Not found",
    profile := .vstr "Not found", experience := .vstr "Not found",
    education := .vstr "Not found", skills := .vstr "Not found",
    projects := .vstr "Not found", position := .vstr "Not found" }

/-- A recognizer that returns no entities (stub for the external NLP model). -/
def nerNone : String → List Entity := fun _ => []

/-- The six tracked sections of the scorer (app.py line 200). -/
def sectionsToCheck : List String :=
  ["Profile", "Professional Experience", "Education", "Skills", "Projects",
   "Position of Responsibility"]

/-- Truthiness of a Python list value. -/
def PyVal.listTruthy : PyVal → Bool
  | .vlist l => !l.isEmpty
  | .vstr _ => false

/-- `isinstance(v, list)`. -/
def PyVal.isList : PyVal → Bool
  | .vlist _ => true
  | .vstr _ => false

/-- `isinstance(v, str)`. -/
def PyVal.isStr : PyVal → Bool
  | .vstr _ => true
  | .vlist _ => false

/-- The string payload (only inspected under an `isStr` guard). -/
def PyVal.strOrEmpty : PyVal → String
  | .vstr s => s
  | .vlist _ => ""

/-- The presence test of app.py line 203, with Python's `and`/`or`
precedence as written:
`(v != "Not found" and (isinstance(v, list) and v)) or (isinstance(v, str) and v.strip() != "")`. -/
def presentCheck : Option PyVal → Bool
  | none => false
  | some v =>
    (decide (v ≠ .vstr "Not found") && (v.isList && v.listTruthy)) ||
    (v.isStr && decide (pyStrip v.strOrEmpty ≠ ""))

/-- The presence test the code's own comment (app.py line 202) describes:
not the sentinel, and not an empty string or list. -/
def intendedPresent : Option PyVal → Bool
  | none => false
  | some (.vstr s) => decide (s ≠ "Not found") && decide (s ≠ "")
  | some (.vlist l) => !l.isEmpty

/-- `sections_found` of app.py lines 199-204. -/
def sectionsFound (d : Details) : Nat :=
  sectionsToCheck.foldl
    (fun acc k => acc + (if presentCheck (d.get k) then 1 else 0)) 0

/-- Count of sections present under the comment's intended test. -/
def intendedFound (d : Details) : Nat :=
  sectionsToCheck.foldl
    (fun acc k => acc + (if intendedPresent (d.get k) then 1 else 0)) 0

/-- The completeness component of the score (app.py line 205):
`(sections_found / len(sections_to_check)) * MAX_SECTIONS_SCORE`. -/
def sectionsScore (d : Details) : ℚ :=
  ((sectionsFound d : ℚ) / 6) * 3

/-- Strict order as a proposition. -/
def sLt (a b : String) : Prop := strLt a b = true

/-- A string containing at least one non-whitespace character. -/
def goodStr (s : String) : Prop := ∃ c ∈ s.data, pyIsSpace c = false

/-- All six accumulated section lists contain only `goodStr` lines. -/
def GoodData (d : SecData) : Prop :=
  (∀ s ∈ d.profile, goodStr s) ∧ (∀ s ∈ d.experience, goodStr s) ∧
  (∀ s ∈ d.education, goodStr s) ∧ (∀ s ∈ d.skills, goodStr s) ∧
  (∀ s ∈ d.projects, goodStr s) ∧ (∀ s ∈ d.position, goodStr s)

/-- Non-emptiness of a Python value (string or list). -/
def valNonempty : PyVal → Bool
  | .vstr s => decide (s ≠ "")
  | .vlist l => decide (l ≠ [])

/-- The scenario text of spec §8 and claim C1. -/
def c1text : String :=
  "JOHN SMITH\njohn@x.com\n+1-555-123-4567\nEDUCATION\nB.Tech CS 2020\nSKILLS\nPython, SQL; Go"

/-- A record with exactly three of the six tracked sections present. -/
def c3text : String :=
  "PROFILE\nAlpha beta\nPROFESSIONAL EXPERIENCE\nDid things\nEDUCATION\nB.Tech"

/-- Shape of an email match: a non-empty run of class characters, `@`, then
a non-empty run of class characters (the claim's local-part@domain). -/
def emailShapeB (s : String) : Bool :=
  match s.data.dropWhile (fun c => !(c == '@')) with
  | '@' :: dom =>
    !(s.data.takeWhile (fun c => !(c == '@'))).isEmpty && !dom.isEmpty &&
    (s.data.takeWhile (fun c => !(c == '@'))).all emailChar && dom.all emailChar
  | _ => false

/-- Shape of a phone match after the optional `+`: a digit, then at least
nine further characters, all but the last in the phone class (digit, hyphen
or whitespace), the last a digit. -/
def phoneTail : List Char → Bool
  | [] => false
  | c :: rest =>
    c.isDigit && decide (9 ≤ rest.length) &&
    (match rest.getLast? with
     | some d => d.isDigit
     | none => false) &&
    rest.dropLast.all phoneClass

/-- Shape of a phone match: an optional leading `+`, then `phoneTail`. -/
def phoneShapeB (s : String) : Bool :=
  match s.data with
  | [] => false
  | c :: r => if c = '+' then phoneTail r else phoneTail (c :: r)

/-! ### Theorems -/

theorem lexLt_irrefl : ∀ l : List Char, lexLt l l = false
  | [] => rfl
  | c :: cs => by simp [lexLt, lexLt_irrefl cs]

theorem lexLt_tri : ∀ a b : List Char, lexLt a b = true ∨ lexLt b a = true ∨ a = b
  | [], [] => Or.inr (Or.inr rfl)
  | [], _ :: _ => Or.inl rfl
  | _ :: _, [] => Or.inr (Or.inl rfl)
  | a :: as, b :: bs => by
    rcases lt_trichotomy a b with h | h | h
    · exact Or.inl (by simp [lexLt, h])
    · subst h
      rcases lexLt_tri as bs with h2 | h2 | h2
      · exact Or.inl (by simp [lexLt, h2])
      · exact Or.inr (Or.inl (by simp [lexLt, h2]))
      · exact Or.inr (Or.inr (by rw [h2]))
    · exact Or.inr (Or.inl (by simp [lexLt, h]))

theorem lexLt_trans : ∀ (a b c : List Char),
    lexLt a b = true → lexLt b c = true → lexLt a c = true := by
  intro a
  induction a with
  | nil =>
    intro b c hab hbc
    cases b with
    | nil => simp [lexLt] at hab
    | cons y bs =>
      cases c with
      | nil => simp [lexLt] at hbc
      | cons z cs => simp [lexLt]
  | cons x as ih =>
    intro b c hab hbc
    cases b with
    | nil => simp [lexLt] at hab
    | cons y bs =>
      cases c with
      | nil => simp [lexLt] at hbc
      | cons z cs =>
        simp only [lexLt, Bool.or_eq_true, Bool.and_eq_true, decide_eq_true_eq,
          beq_iff_eq] at hab hbc ⊢
        rcases hab with h1 | ⟨rfl, h1⟩
        · rcases hbc with h2 | ⟨rfl, h2⟩
          · exact Or.inl (lt_trans h1 h2)
          · exact Or.inl h1
        · rcases hbc with h2 | ⟨rfl, h2⟩
          · exact Or.inl h2
          · exact Or.inr ⟨rfl, ih bs cs h1 h2⟩

theorem sLt_irrefl (a : String) : ¬ sLt a a := by
  simp [sLt, strLt, lexLt_irrefl]

theorem sLt_trans {a b c : String} (h1 : sLt a b) (h2 : sLt b c) : sLt a c :=
  lexLt_trans a.data b.data c.data h1 h2

theorem sLt_tri (a b : String) : sLt a b ∨ sLt b a ∨ a = b := by
  rcases lexLt_tri a.data b.data with h | h | h
  · exact Or.inl h
  · exact Or.inr (Or.inl h)
  · refine Or.inr (Or.inr ?_)
    cases a with
    | mk da => cases b with
      | mk db => exact congrArg String.mk h

theorem sLt_ne {a b : String} (h : sLt a b) : a ≠ b := by
  rintro rfl; exact sLt_irrefl a h

theorem mem_insertSorted {x a : String} : ∀ {l : List String},
    x ∈ insertSorted a l ↔ x = a ∨ x ∈ l := by
  intro l
  induction l with
  | nil => simp [insertSorted]
  | cons b bs ih =>
    simp only [insertSorted]
    by_cases h : strLt a b = true
    · rw [if_pos h]; simp only [List.mem_cons]
    · rw [if_neg h]; simp only [List.mem_cons, ih]; tauto

theorem pairwise_insertSorted {a : String} : ∀ {l : List String},
    l.Pairwise sLt → a ∉ l → (insertSorted a l).Pairwise sLt := by
  intro l
  induction l with
  | nil => intro _ _; simp [insertSorted]
  | cons b bs ih =>
    intro hp hna
    have hb := List.pairwise_cons.mp hp
    simp only [insertSorted]
    by_cases h : strLt a b = true
    · rw [if_pos h]
      refine List.pairwise_cons.mpr ⟨?_, hp⟩
      intro y hy
      rcases List.mem_cons.mp hy with rfl | hy
      · exact h
      · exact sLt_trans h (hb.1 y hy)
    · rw [if_neg h]
      have hab : a ≠ b := fun hab => hna (hab ▸ List.mem_cons_self b bs)
      have hba : sLt b a := by
        rcases sLt_tri a b with h1 | h1 | h1
        · exact absurd h1 h
        · exact h1
        · exact absurd h1 hab
      refine List.pairwise_cons.mpr
        ⟨?_, ih hb.2 (fun ha => hna (List.mem_cons_of_mem b ha))⟩
      intro y hy
      rcases mem_insertSorted.mp hy with rfl | hy
      · exact hba
      · exact hb.1 y hy

theorem mem_sortStrs {x : String} : ∀ {l : List String}, x ∈ sortStrs l ↔ x ∈ l := by
  intro l
  induction l with
  | nil => simp [sortStrs]
  | cons a as ih => simp only [sortStrs, mem_insertSorted, List.mem_cons, ih]

theorem pairwise_sortStrs : ∀ {l : List String}, l.Nodup → (sortStrs l).Pairwise sLt := by
  intro l
  induction l with
  | nil => intro _; simp [sortStrs]
  | cons a as ih =>
    intro hnd
    have h := List.nodup_cons.mp hnd
    exact pairwise_insertSorted (ih h.2) (fun ha => h.1 (mem_sortStrs.mp ha))

theorem pySortedSet_pairwise (l : List String) : (pySortedSet l).Pairwise sLt :=
  pairwise_sortStrs (List.nodup_dedup l)

theorem pySortedSet_nodup (l : List String) : (pySortedSet l).Nodup :=
  (pySortedSet_pairwise l).imp (fun h => sLt_ne h)

theorem pySortedSet_ne_nil {a : String} {l : List String} :
    pySortedSet (a :: l) ≠ [] := by
  intro h
  have : a ∈ pySortedSet (a :: l) :=
    mem_sortStrs.mpr (List.mem_dedup.mpr (List.mem_cons_self a l))
  rw [h] at this
  exact List.not_mem_nil a this

theorem dropWhile_head_false {p : Char → Bool} :
    ∀ {l : List Char} {x : Char} {xs : List Char},
    l.dropWhile p = x :: xs → p x = false := by
  intro l
  induction l with
  | nil => intro x xs h; simp [List.dropWhile] at h
  | cons c cs ih =>
    intro x xs h
    by_cases hc : p c
    · rw [List.dropWhile_cons_of_pos hc] at h
      exact ih h
    · rw [List.dropWhile_cons_of_neg hc] at h
      cases h
      exact Bool.not_eq_true _ |>.mp hc

theorem mem_dropWhile_of_not {p : Char → Bool} {c : Char} :
    ∀ {l : List Char}, c ∈ l → p c = false → c ∈ l.dropWhile p := by
  intro l
  induction l with
  | nil => intro h _; simp at h
  | cons x xs ih =>
    intro hmem hc
    by_cases hx : p x
    · rw [List.dropWhile_cons_of_pos hx]
      rcases List.mem_cons.mp hmem with rfl | hmem
      · rw [hx] at hc; cases hc
      · exact ih hmem hc
    · rw [List.dropWhile_cons_of_neg hx]
      exact hmem

theorem mem_stripData {c : Char} {l : List Char}
    (hmem : c ∈ l) (hc : pyIsSpace c = false) : c ∈ stripData l := by
  unfold stripData
  have h1 : c ∈ l.dropWhile pyIsSpace := mem_dropWhile_of_not hmem hc
  have h2 : c ∈ (l.dropWhile pyIsSpace).reverse := List.mem_reverse.mpr h1
  exact List.mem_reverse.mpr (mem_dropWhile_of_not h2 hc)

theorem string_mk_ne_empty {l : List Char} (h : l ≠ []) : String.mk l ≠ "" := by
  intro he
  exact h (congrArg String.data he)

theorem goodStr_ne_empty {s : String} (h : goodStr s) : s ≠ "" := by
  obtain ⟨c, hmem, _⟩ := h
  intro he
  rw [he] at hmem
  exact List.not_mem_nil c hmem

theorem pyStrip_ne_empty {s : String} (h : goodStr s) : pyStrip s ≠ "" := by
  obtain ⟨c, hmem, hc⟩ := h
  exact string_mk_ne_empty (fun he => by
    have := mem_stripData hmem hc
    rw [he] at this
    exact List.not_mem_nil c this)

theorem goodStr_pyStrip {u : String} (h : pyStrip u ≠ "") : goodStr (pyStrip u) := by
  unfold pyStrip at h ⊢
  rcases hB : (u.data.dropWhile pyIsSpace).reverse.dropWhile pyIsSpace with _ | ⟨b, bs⟩
  · exact absurd (congrArg String.mk (by simp [stripData, hB])) h
  · refine ⟨b, ?_, dropWhile_head_false hB⟩
    show b ∈ stripData u.data
    unfold stripData
    rw [hB]
    exact List.mem_reverse.mpr (List.mem_cons_self b bs)

theorem pyJoin_data_cons (sep a : String) (l : List String) :
    ∃ t, (pyJoin sep (a :: l)).data = a.data ++ t := by
  cases l with
  | nil => exact ⟨[], by simp [pyJoin]⟩
  | cons b rest =>
    refine ⟨(sep ++ pyJoin sep (b :: rest)).data, ?_⟩
    show (a ++ sep ++ pyJoin sep (b :: rest)).data = _
    simp only [String.data_append, List.append_assoc]

theorem goodStr_pyJoin {a : String} (l : List String) (h : goodStr a) :
    goodStr (pyJoin "\n" (a :: l)) := by
  obtain ⟨c, hmem, hc⟩ := h
  obtain ⟨t, ht⟩ := pyJoin_data_cons "\n" a l
  exact ⟨c, by rw [ht]; exact List.mem_append_left t hmem, hc⟩

theorem cleanedLines_good {text : String} : ∀ l ∈ cleanedLines text, goodStr l := by
  intro l hl
  unfold cleanedLines at hl
  obtain ⟨hmem, hne⟩ := List.mem_filter.mp hl
  obtain ⟨u, _, hu⟩ := List.mem_map.mp hmem
  subst hu
  exact goodStr_pyStrip (by simpa using hne)

theorem splitClean_good {c : Char} {s : String} : ∀ t ∈ splitClean c s, goodStr t := by
  intro t ht
  unfold splitClean at ht
  obtain ⟨hmem, hne⟩ := List.mem_filter.mp ht
  obtain ⟨u, _, hu⟩ := List.mem_map.mp hmem
  subst hu
  exact goodStr_pyStrip (by simpa using hne)

theorem good_append {l1 l2 : List String} (h1 : ∀ s ∈ l1, goodStr s)
    (h2 : ∀ s ∈ l2, goodStr s) : ∀ s ∈ l1 ++ l2, goodStr s := by
  intro s hs
  rcases List.mem_append.mp hs with h | h
  · exact h1 s h
  · exact h2 s h

theorem addLines_good {d : SecData} {key : String} {ls : List String}
    (hd : GoodData d) (hls : ∀ s ∈ ls, goodStr s) : GoodData (addLines d key ls) := by
  obtain ⟨h1, h2, h3, h4, h5, h6⟩ := hd
  unfold addLines
  split_ifs <;>
    exact ⟨by first | exact good_append h1 hls | exact h1,
           by first | exact good_append h2 hls | exact h2,
           by first | exact good_append h3 hls | exact h3,
           by first | exact good_append h4 hls | exact h4,
           by first | exact good_append h5 hls | exact h5,
           by first | exact good_append h6 hls | exact h6⟩

theorem routeLine_good {st : Option String × SecData} {line : String}
    (hline : goodStr line) (hst : GoodData st.2) : GoodData (routeLine st line).2 := by
  unfold routeLine
  split
  · exact hst
  · split
    · exact hst
    · split
      · dsimp only
        split_ifs with h1 h2 h3
        · exact hst
        · exact addLines_good hst splitClean_good
        · exact addLines_good hst splitClean_good
        · refine addLines_good hst ?_
          intro s hs
          rcases List.mem_singleton.mp hs with rfl
          exact goodStr_pyStrip h1
      · refine addLines_good hst ?_
        intro s hs
        rcases List.mem_singleton.mp hs with rfl
        exact hline

theorem foldl_route_good : ∀ (lines : List String) (st : Option String × SecData),
    (∀ l ∈ lines, goodStr l) → GoodData st.2 →
    GoodData (lines.foldl routeLine st).2 := by
  intro lines
  induction lines with
  | nil => intro st _ h; exact h
  | cons l ls ih =>
    intro st hg hst
    rw [List.foldl_cons]
    exact ih _ (fun x hx => hg x (List.mem_cons_of_mem l hx))
      (routeLine_good (hg l (List.mem_cons_self l ls)) hst)

theorem extract_data_good (text : String) :
    GoodData ((cleanedLines text).foldl routeLine (none, SecData.empty)).2 :=
  foldl_route_good _ _ cleanedLines_good
    ⟨by simp [SecData.empty], by simp [SecData.empty], by simp [SecData.empty],
     by simp [SecData.empty], by simp [SecData.empty], by simp [SecData.empty]⟩

theorem finalizeStr_ok {l : List String} (h : ∀ s ∈ l, goodStr s) :
    finalizeStr l = PyVal.vstr "Not found" ∨ valNonempty (finalizeStr l) = true := by
  cases l with
  | nil => exact Or.inl rfl
  | cons a t =>
    right
    rw [finalizeStr, if_neg (by simp)]
    simpa [valNonempty] using
      goodStr_ne_empty (goodStr_pyJoin t (h a (List.mem_cons_self a t)))

theorem finalizeSkills_ok (l : List String) :
    finalizeSkills l = PyVal.vstr "Not found" ∨ valNonempty (finalizeSkills l) = true := by
  cases l with
  | nil => exact Or.inl rfl
  | cons a t =>
    right
    rw [finalizeSkills, if_neg (by simp)]
    simpa [valNonempty] using pySortedSet_ne_nil (a := a) (l := t)

theorem presentCheck_finalizeStr {l : List String} (h : ∀ s ∈ l, goodStr s) :
    presentCheck (some (finalizeStr l)) = true := by
  cases l with
  | nil => rw [finalizeStr, if_pos rfl]; decide
  | cons a t =>
    rw [finalizeStr, if_neg (by simp)]
    simp only [presentCheck, PyVal.isStr, PyVal.strOrEmpty, Bool.or_eq_true,
      Bool.and_eq_true, decide_eq_true_eq, Bool.true_and]
    exact Or.inr (pyStrip_ne_empty (goodStr_pyJoin t (h a (List.mem_cons_self a t))))

theorem presentCheck_finalizeSkills (l : List String) :
    presentCheck (some (finalizeSkills l)) = true := by
  cases l with
  | nil => rw [finalizeSkills, if_pos rfl]; decide
  | cons a t =>
    rw [finalizeSkills, if_neg (by simp)]
    simp only [presentCheck, PyVal.isList, PyVal.listTruthy, Bool.or_eq_true,
      Bool.and_eq_true, decide_eq_true_eq, Bool.true_and, Bool.not_eq_eq_eq_not,
      Bool.not_true, List.isEmpty_eq_false, ne_eq]
    exact Or.inl ⟨by simp, pySortedSet_ne_nil⟩

/-- Claim C4: for every record produced by `extract_details`, the
section-completeness criterion of `calculate_resume_score` counts all six
tracked sections as present — sections holding the string sentinel
"Not found" pass the check because of the `and`/`or` precedence in the
presence test — so the completeness component always contributes its full
three points. -/
theorem extract_c4_sections_always_present :
    ∀ (text : String) (ner : String → List Entity),
    sectionsFound (extract_details text ner) = 6 ∧
    sectionsScore (extract_details text ner) = 3 := by
  intro text ner
  obtain ⟨g1, g2, g3, g4, g5, g6⟩ := extract_data_good text
  have h1 : presentCheck ((extract_details text ner).get "Profile") = true :=
    presentCheck_finalizeStr g1
  have h2 : presentCheck ((extract_details text ner).get "Professional Experience") = true :=
    presentCheck_finalizeStr g2
  have h3 : presentCheck ((extract_details text ner).get "Education") = true :=
    presentCheck_finalizeStr g3
  have h4 : presentCheck ((extract_details text ner).get "Skills") = true :=
    presentCheck_finalizeSkills _
  have h5 : presentCheck ((extract_details text ner).get "Projects") = true :=
    presentCheck_finalizeStr g5
  have h6 : presentCheck ((extract_details text ner).get "Position of Responsibility") = true :=
    presentCheck_finalizeStr g6
  have hf : sectionsFound (extract_details text ner) = 6 := by
    simp [sectionsFound, sectionsToCheck, h1, h2, h3, h4, h5, h6]
  refine ⟨hf, ?_⟩
  unfold sectionsScore
  rw [hf]
  norm_num

/-- Claim C6: for all inputs, every canonical section identifier of the
catalog is present as a key of the extracted record, holding either the
sentinel "Not found" or a non-empty value. -/
theorem extract_c6_catalog_keys :
    ∀ (text : String) (ner : String → List Entity) (key : String),
    key ∈ canonicalSections →
    ∃ v, (extract_details text ner).get key = some v ∧
      (v = PyVal.vstr "Not found" ∨ valNonempty v = true) := by
  intro text ner key hkey
  obtain ⟨g1, g2, g3, g4, g5, g6⟩ := extract_data_good text
  have hkey6 : key = "Profile" ∨ key = "Professional Experience" ∨ key = "Education" ∨
      key = "Skills" ∨ key = "Projects" ∨ key = "Position of Responsibility" := by
    simpa [canonicalSections, sectionKeywords] using hkey
  rcases hkey6 with rfl | rfl | rfl | rfl | rfl | rfl
  · exact ⟨_, rfl, finalizeStr_ok g1⟩
  · exact ⟨_, rfl, finalizeStr_ok g2⟩
  · exact ⟨_, rfl, finalizeStr_ok g3⟩
  · exact ⟨_, rfl, finalizeSkills_ok _⟩
  · exact ⟨_, rfl, finalizeStr_ok g5⟩
  · exact ⟨_, rfl, finalizeStr_ok g6⟩

/-- Witness for C6: at the concrete input `""` and key `"Skills"`. -/
theorem extract_c6_witness :
    ∃ v, (extract_details "" nerNone).get "Skills" = some v ∧
      (v = PyVal.vstr "Not found" ∨ valNonempty v = true) :=
  extract_c6_catalog_keys "" nerNone "Skills" (by decide)

/-- Claim C7: whenever the extracted Skills field holds a list, that list is
strictly sorted (hence sorted with no duplicate tokens, case-sensitively). -/
theorem extract_c7_skills_sorted_nodup :
    ∀ (text : String) (ner : String → List Entity) (l : List String),
    (extract_details text ner).skills = PyVal.vlist l →
    l.Pairwise sLt ∧ l.Nodup := by
  intro text ner l h
  have h2 : finalizeSkills
      ((cleanedLines text).foldl routeLine (none, SecData.empty)).2.skills =
      PyVal.vlist l := h
  unfold finalizeSkills at h2
  by_cases hsk : ((cleanedLines text).foldl routeLine (none, SecData.empty)).2.skills = []
  · rw [if_pos hsk] at h2; cases h2
  · rw [if_neg hsk] at h2
    injection h2 with hl
    subst hl
    exact ⟨pySortedSet_pairwise _, pySortedSet_nodup _⟩

/-- Witness for C7: the input repeats the token "b"; the resulting list holds
it once and is sorted. -/
theorem extract_c7_witness :
    (extract_details "SKILLS\nb\na\nb" nerNone).skills = PyVal.vlist ["a", "b"] ∧
    (List.Pairwise sLt ["a", "b"] ∧ List.Nodup ["a", "b"]) :=
  ⟨by decide,
   extract_c7_skills_sorted_nodup "SKILLS\nb\na\nb" nerNone ["a", "b"] (by decide)⟩

theorem find_some_of_mem {α : Type} {p : α → Bool} :
    ∀ (l : List α) (a : α), a ∈ l → p a = true →
    ∃ b, l.find? p = some b ∧ p b = true := by
  intro l
  induction l with
  | nil => intro a h _; simp at h
  | cons x xs ih =>
    intro a hmem hp
    by_cases hx : p x = true
    · exact ⟨x, List.find?_cons_of_pos xs hx, hx⟩
    · rcases List.mem_cons.mp hmem with rfl | hmem
      · exact absurd hp hx
      · obtain ⟨b, hb, hpb⟩ := ih a hmem hp
        exact ⟨b, by rw [List.find?_cons_of_neg xs hx, hb], hpb⟩

/-- Claim C5: a line matching some section keyword (case-insensitive
substring plus length guard) makes the routing step set the current section
to the canonical identifier of the first matching keyword in table order,
and contribute no content to any section. -/
theorem extract_c5_header_priority :
    ∀ (st : Option String × SecData) (line kw key : String),
    (kw, key) ∈ sectionKeywords → headerMatch kw line = true →
    ∃ key2, findHeader line = some key2 ∧ routeLine st line = (some key2, st.2) := by
  intro st line kw key hmem hmatch
  obtain ⟨b, hb, _⟩ :=
    find_some_of_mem sectionKeywords (kw, key) hmem (p := fun q => headerMatch q.1 line) hmatch
  have hfh : findHeader line = some b.2 := by rw [findHeader, hb]; rfl
  exact ⟨b.2, hfh, by simp only [routeLine, hfh]⟩

/-- Witness for C5: the line "SKILLS" from an empty routing state. -/
theorem extract_c5_witness :
    ∃ key2, findHeader "SKILLS" = some key2 ∧
      routeLine (none, SecData.empty) "SKILLS" = (some key2, SecData.empty) :=
  extract_c5_header_priority (none, SecData.empty) "SKILLS" "SKILLS" "Skills"
    (by decide) (by decide)

theorem personCands_congr {ner1 ner2 : String → List Entity} {x : String}
    (h : ner1 x = ner2 x) : personCands ner1 x = personCands ner2 x := by
  unfold personCands
  rw [h]

theorem flatMap_congr_on {α β : Type} {f g : α → List β} :
    ∀ (l : List α), (∀ a ∈ l, f a = g a) → l.flatMap f = l.flatMap g := by
  intro l
  induction l with
  | nil => intro _; rfl
  | cons x xs ih =>
    intro h
    simp only [List.flatMap_cons]
    rw [h x (List.mem_cons_self x xs), ih (fun a ha => h a (List.mem_cons_of_mem x ha))]

theorem getD_mem_take {α : Type} (d : α) :
    ∀ (l : List α) (i n : Nat), i < n → i < l.length → l.getD i d ∈ l.take n := by
  intro l
  induction l with
  | nil => intro i n _ h; simp at h
  | cons x xs ih =>
    intro i n hin hlen
    cases i with
    | zero =>
      cases n with
      | zero => simp at hin
      | succ m => simp [List.getD_cons_zero, List.take_succ_cons]
    | succ j =>
      cases n with
      | zero => simp at hin
      | succ m =>
        simp only [List.take_succ_cons, List.getD_cons_succ]
        exact List.mem_cons_of_mem x
          (ih j m (Nat.lt_of_succ_lt_succ hin) (Nat.lt_of_succ_lt_succ hlen))

theorem nameCandidates_congr {text : String} {ner1 ner2 : String → List Entity}
    (h : ∀ l ∈ (cleanedLines text).take 5, ner1 l = ner2 l) :
    nameCandidates ner1 (cleanedLines text) = nameCandidates ner2 (cleanedLines text) := by
  unfold nameCandidates
  apply flatMap_congr_on
  intro i hi
  have hi5 : i < min 5 (cleanedLines text).length := List.mem_range.mp hi
  have hlen : i < (cleanedLines text).length := lt_of_lt_of_le hi5 (min_le_right _ _)
  have hlt5 : i < 5 := lt_of_lt_of_le hi5 (min_le_left _ _)
  rw [personCands_congr (h _ (getD_mem_take "" (cleanedLines text) i 5 hlt5 hlen))]

/-- Claim C9: the Name rule examines only the first five cleaned lines (any
two recognizers agreeing there yield the same Name), the first candidate
overall becomes the Name, and with no candidates the Name is the sentinel. -/
theorem extract_c9_name_rule :
    ∀ (text : String) (ner1 ner2 : String → List Entity),
    ((∀ l ∈ (cleanedLines text).take 5, ner1 l = ner2 l) →
      (extract_details text ner1).name = (extract_details text ner2).name) ∧
    (nameCandidates ner1 (cleanedLines text) = [] →
      (extract_details text ner1).name = "Not found") ∧
    (∀ c cs, nameCandidates ner1 (cleanedLines text) = c :: cs →
      (extract_details text ner1).name = c) := by
  intro text ner1 ner2
  refine ⟨?_, ?_, ?_⟩
  · intro h
    show (match nameCandidates ner1 (cleanedLines text) with
          | [] => "Not found" | c :: _ => c) =
         (match nameCandidates ner2 (cleanedLines text) with
          | [] => "Not found" | c :: _ => c)
    rw [nameCandidates_congr h]
  · intro h
    show (match nameCandidates ner1 (cleanedLines text) with
          | [] => "Not found" | c :: _ => c) = "Not found"
    rw [h]
  · intro c cs h
    show (match nameCandidates ner1 (cleanedLines text) with
          | [] => "Not found" | c :: _ => c) = c
    rw [h]

/-- Witness for C9: with the stub recognizer the single candidate is the
uppercase two-word first line, which becomes the Name. -/
theorem extract_c9_witness :
    (extract_details "JOHN SMITH\nEDUCATION\nB.Tech" nerNone).name = "JOHN SMITH" :=
  (extract_c9_name_rule "JOHN SMITH\nEDUCATION\nB.Tech" nerNone nerNone).2.2
    "JOHN SMITH" [] (by decide)

/-- Claim C10: extraction is total; every one of the nine keys is present in
the returned record, and on the empty input every field is the sentinel. -/
theorem extract_c10_total :
    (∀ (text : String) (ner : String → List Entity) (key : String),
      key ∈ allDetailKeys → ((extract_details text ner).get key).isSome = true) ∧
    (∀ ner : String → List Entity, extract_details "" ner = sentinelDetails) := by
  refine ⟨?_, ?_⟩
  · intro text ner key hkey
    have h9 : key = "Name" ∨ key = "Email" ∨ key = "Phone" ∨ key = "Profile" ∨
        key = "Professional Experience" ∨ key = "Education" ∨ key = "Skills" ∨
        key = "Projects" ∨ key = "Position of Responsibility" := by
      simpa [allDetailKeys] using hkey
    rcases h9 with rfl | rfl | rfl | rfl | rfl | rfl | rfl | rfl | rfl <;> rfl
  · intro ner
    rfl

/-- Witness for C10: concrete key lookup and the empty input. -/
theorem extract_c10_witness :
    ((extract_details "x" nerNone).get "Skills").isSome = true ∧
    extract_details "" nerNone = sentinelDetails :=
  ⟨extract_c10_total.1 "x" nerNone "Skills" (by decide), extract_c10_total.2 nerNone⟩

/-- Counterexample to claim C1 as stated: on the scenario text the Skills
collection is {"Go", "Python, SQL"} — the line is split on the semicolon
only, so the comma-joined "Python, SQL" stays one token and the claimed
token "Python" does not occur. -/
theorem extract_c1_counterexample :
    (extract_details c1text nerNone).skills = PyVal.vlist ["Go", "Python, SQL"] ∧
    "Python" ∉ ["Go", "Python, SQL"] :=
  ⟨by decide, by decide⟩

/-- Claim C1 (amended): the scenario extraction yields the claimed Name,
Email, Phone and Education, and the Skills collection {"Go", "Python, SQL"}. -/
theorem extract_c1_amended :
    (extract_details c1text nerNone).name = "JOHN SMITH" ∧
    (extract_details c1text nerNone).email = "john@x.com" ∧
    (extract_details c1text nerNone).phone = "+1-555-123-4567" ∧
    (extract_details c1text nerNone).education = PyVal.vstr "B.Tech CS 2020" ∧
    (extract_details c1text nerNone).skills = PyVal.vlist ["Go", "Python, SQL"] :=
  ⟨rfl, rfl, rfl, rfl, rfl⟩

/-- Counterexample to claim C2 as stated: a Skills content line is not split
on whitespace; "Python SQL" survives as a single token containing a space. -/
theorem extract_c2_counterexample :
    (extract_details "SKILLS\nPython SQL" nerNone).skills = PyVal.vlist ["Python SQL"] ∧
    "Python SQL".data.contains ' ' = true :=
  ⟨by decide, by decide⟩

/-- Claim C2 (amended): a content line routed while the active section is
Skills has its bullet and hyphen characters deleted and is stripped; the
result, when non-empty, is split on semicolons when one is present, else on
commas when one is present, else kept whole; the pieces are stripped, empty
pieces are discarded, and the rest are appended to the Skills list
(deduplication and sorting happen at finalization). -/
theorem extract_c2_amended :
    ∀ (d : SecData) (line : String), findHeader line = none →
    routeLine (some "Skills", d) line =
      (some "Skills", { d with skills := d.skills ++ skillTokens line }) := by
  intro d line hfh
  simp only [routeLine, hfh, skillTokens]
  split_ifs with h1 h2 h3 <;> simp [addLines]

/-- Witness for C2 (amended): the scenario skills line. -/
theorem extract_c2_witness :
    routeLine (some "Skills", SecData.empty) "Python, SQL; Go" =
      (some "Skills",
       { SecData.empty with
         skills := SecData.empty.skills ++ skillTokens "Python, SQL; Go" }) :=
  extract_c2_amended SecData.empty "Python, SQL; Go" (by decide)

/-- Claim C3 (code bug): on a record with exactly three of the six tracked
sections present (under the intended presence test the code's own comment
describes), the completeness component is the full 3 points rather than the
half (3/2) the claim and the comment call for — the `and`/`or` precedence in
the presence check makes sentinel-valued sections count as present. -/
theorem score_c3_bug_evaluation :
    intendedFound (extract_details c3text nerNone) = 3 ∧
    sectionsFound (extract_details c3text nerNone) = 6 ∧
    sectionsScore (extract_details c3text nerNone) = 3 ∧
    sectionsScore (extract_details c3text nerNone) ≠ 3 / 2 := by
  have h6 : sectionsFound (extract_details c3text nerNone) = 6 := by decide
  refine ⟨by decide, h6, ?_, ?_⟩
  · unfold sectionsScore
    rw [h6]
    norm_num
  · unfold sectionsScore
    rw [h6]
    norm_num

theorem tw_append_stop {p : Char → Bool} :
    ∀ (a : List Char) (b : Char) (c : List Char), (∀ x ∈ a, p x = true) → p b = false →
    (a ++ b :: c).takeWhile p = a ∧ (a ++ b :: c).dropWhile p = b :: c := by
  intro a
  induction a with
  | nil =>
    intro b c _ hb
    constructor
    · simp [List.takeWhile_cons, hb]
    · simp [List.dropWhile_cons, hb]
  | cons x xs ih =>
    intro b c ha hb
    have hx : p x = true := ha x (List.mem_cons_self x xs)
    have hrec := ih b c (fun y hy => ha y (List.mem_cons_of_mem x hy)) hb
    constructor
    · simp only [List.cons_append, List.takeWhile_cons, hx, if_true, hrec.1]
    · simp only [List.cons_append, List.dropWhile_cons, hx, if_true, hrec.2]

theorem emailChar_ne_at {x : Char} (h : emailChar x = true) : (!(x == '@')) = true := by
  by_cases hx : x = '@'
  · subst hx; exact absurd h (by decide)
  · simp [hx]

theorem emailAt_spec : ∀ (cs m : List Char), emailAt cs = some m →
    emailShapeB (String.mk m) = true ∧ ∃ v, m ++ v = cs := by
  intro cs m h
  cases cs with
  | nil => simp [emailAt] at h
  | cons c rest =>
    rw [emailAt] at h
    by_cases hc : emailChar c = true
    · rw [if_pos hc] at h
      split at h
      · -- dropWhile = '@' :: r2
        rename_i r2 hdw
        split at h
        · -- takeWhile r2 = []
          cases h
        · -- takeWhile r2 = d :: ds
          rename_i d ds htw
          injection h with hm
          subst hm
          have hrun1 : ∀ x ∈ (c :: rest).takeWhile emailChar, emailChar x = true :=
            fun x hx => List.mem_takeWhile_imp hx
          have hrun2 : ∀ x ∈ d :: ds, emailChar x = true := by
            rw [← htw]; exact fun x hx => List.mem_takeWhile_imp hx
          constructor
          · have hstop := tw_append_stop ((c :: rest).takeWhile emailChar) '@' (d :: ds)
              (p := fun x => !(x == '@'))
              (fun x hx => emailChar_ne_at (hrun1 x hx)) (by decide)
            rw [emailShapeB]
            show (match ((c :: rest).takeWhile emailChar ++ '@' :: d :: ds).dropWhile
                (fun x => !(x == '@')) with
              | '@' :: dom =>
                !(((c :: rest).takeWhile emailChar ++ '@' :: d :: ds).takeWhile
                    (fun x => !(x == '@'))).isEmpty && !dom.isEmpty &&
                (((c :: rest).takeWhile emailChar ++ '@' :: d :: ds).takeWhile
                    (fun x => !(x == '@'))).all emailChar && dom.all emailChar
              | _ => false) = true
            rw [hstop.2, hstop.1]
            simp only [Bool.and_eq_true, List.all_eq_true, Bool.not_eq_eq_eq_not,
              Bool.not_true, List.isEmpty_eq_false]
            refine ⟨⟨⟨?_, by simp⟩, fun x hx => hrun1 x hx⟩, fun x hx => hrun2 x hx⟩
            rw [show (c :: rest).takeWhile emailChar = c :: rest.takeWhile emailChar
              from by simp [List.takeWhile_cons, hc]]
            simp
          · refine ⟨r2.dropWhile emailChar, ?_⟩
            have e1 := List.takeWhile_append_dropWhile emailChar (c :: rest)
            have e2 := List.takeWhile_append_dropWhile emailChar r2
            rw [hdw] at e1
            rw [htw] at e2
            show ((c :: rest).takeWhile emailChar ++ '@' :: d :: ds) ++
                r2.dropWhile emailChar = c :: rest
            rw [List.append_assoc]
            rw [show '@' :: d :: ds ++ r2.dropWhile emailChar =
                '@' :: ((d :: ds) ++ r2.dropWhile emailChar) from rfl]
            rw [e2, e1]
      · -- dropWhile result did not start with '@'
        cases h
    · rw [if_neg hc] at h
      cases h

theorem findEmail_first : ∀ (cs : List Char) (s : String), findEmail cs = some s →
    ∃ u v, u ++ s.data ++ v = cs ∧ emailAt (s.data ++ v) = some s.data ∧
      ∀ q, q <:+ cs → (s.data ++ v).length < q.length → emailAt q = none := by
  intro cs
  induction cs with
  | nil => intro s h; simp [findEmail] at h
  | cons c rest ih =>
    intro s h
    rw [findEmail] at h
    split at h
    · rename_i m hat
      injection h with hs
      subst hs
      obtain ⟨_, v, hv⟩ := emailAt_spec (c :: rest) m hat
      refine ⟨[], v, ?_, ?_, ?_⟩
      · rw [List.nil_append]
        exact hv
      · show emailAt (m ++ v) = some m
        rw [hv]
        exact hat
      · intro q hq hlen
        exfalso
        have h1 : q.length ≤ (c :: rest).length := hq.length_le
        have h2 : (m ++ v).length = (c :: rest).length := by rw [hv]
        have h3 : ((String.mk m).data ++ v).length = (m ++ v).length := rfl
        omega
    · rename_i hat
      obtain ⟨u, v, huv, hmat, hnone⟩ := ih s h
      refine ⟨c :: u, v, congrArg (List.cons c) huv, hmat, ?_⟩
      intro q hq hlen
      rcases List.suffix_cons_iff.mp hq with rfl | hq2
      · exact hat
      · exact hnone q hq2 hlen

theorem foldl_range_find {P : Nat → Bool} :
    ∀ (n : Nat) (acc : Option Nat) (i : Nat),
    (List.range n).foldl (fun a j => if P j then some j else a) acc = some i →
    acc = some i ∨ (P i = true ∧ i < n) := by
  intro n
  induction n with
  | zero => intro acc i h; exact Or.inl h
  | succ m ih =>
    intro acc i h
    rw [List.range_succ, List.foldl_append] at h
    simp only [List.foldl_cons, List.foldl_nil] at h
    by_cases hp : P m = true
    · rw [if_pos hp] at h
      injection h with h
      subst h
      exact Or.inr ⟨hp, Nat.lt_succ_self m⟩
    · rw [if_neg hp] at h
      rcases ih acc i h with h2 | ⟨hP, hlt⟩
      · exact Or.inl h2
      · exact Or.inr ⟨hP, Nat.lt_succ_of_lt hlt⟩

theorem bestK_spec {run : List Char} {i : Nat} (h : bestK run = some i) :
    8 ≤ i ∧ i < run.length ∧ (run.getD i ' ').isDigit = true := by
  rcases foldl_range_find run.length none i h with h2 | ⟨hP, hlt⟩
  · cases h2
  · simp only [Bool.and_eq_true, decide_eq_true_eq] at hP
    exact ⟨hP.1, hlt, hP.2⟩

theorem phoneCore_spec : ∀ (cs : List Char) (m : List Char), phoneCore cs = some m →
    phoneTail m = true ∧
    (∃ c0 tail, m = c0 :: tail ∧ c0.isDigit = true) ∧ m <+: cs := by
  intro cs m h
  cases cs with
  | nil => simp [phoneCore] at h
  | cons c rest =>
    rw [phoneCore] at h
    by_cases hc : c.isDigit = true
    · rw [if_pos hc] at h
      rcases hbk : bestK (rest.takeWhile phoneClass) with _ | i
      · rw [hbk] at h; cases h
      · rw [hbk] at h
        injection h with hm
        subst hm
        obtain ⟨h8, hlen, hdig⟩ := bestK_spec hbk
        set run := rest.takeWhile phoneClass with hrun
        have htake_len : (run.take i).length = i := by
          rw [List.length_take]
          exact min_eq_left (Nat.le_of_lt hlen)
        refine ⟨?_, ⟨c, _, rfl, hc⟩, ?_⟩
        · -- phoneTail
          rw [phoneTail]
          simp only [Bool.and_eq_true, decide_eq_true_eq]
          refine ⟨⟨⟨hc, ?_⟩, ?_⟩, ?_⟩
          · rw [List.length_append, htake_len]
            simp
            exact h8
          · rw [List.getLast?_concat]
            exact hdig
          · rw [List.dropLast_concat, List.all_eq_true]
            intro x hx
            exact List.mem_takeWhile_imp (List.take_subset i run hx)
        · -- prefix
          have h1 : run.take i ++ [run.getD i ' '] = run.take (i + 1) := by
            rw [List.take_succ, List.getElem?_eq_getElem hlen,
              List.getD_eq_getElem run ' ' hlen]
            rfl
          rw [h1]
          have h2 : run.take (i + 1) <+: run := List.take_prefix (i + 1) run
          have h3 : run <+: rest := List.takeWhile_prefix phoneClass
          have h4 := h2.trans h3
          exact (List.cons_prefix_cons).mpr ⟨rfl, h4⟩
    · rw [if_neg hc] at h; cases h

theorem phoneAt_spec (cs : List Char) (m : List Char) (h : phoneAt cs = some m) :
    phoneShapeB (String.mk m) = true ∧ m <+: cs := by
  rw [phoneAt.eq_def] at h
  split at h
  · rename_i rest
    rcases hpc : phoneCore rest with _ | m0
    · rw [hpc] at h; cases h
    · rw [hpc] at h
      injection h with hm
      subst hm
      obtain ⟨ht, ⟨c0, tail, hm0, hdig⟩, hpre⟩ := phoneCore_spec rest m0 hpc
      constructor
      · rw [phoneShapeB]
        show (if '+' = '+' then phoneTail m0 else phoneTail ('+' :: m0)) = true
        rw [if_pos rfl]
        exact ht
      · exact (List.cons_prefix_cons).mpr ⟨rfl, hpre⟩
  · obtain ⟨ht, ⟨c0, tail, hm0, hdig⟩, hpre⟩ := phoneCore_spec cs m h
    constructor
    · subst hm0
      rw [phoneShapeB]
      show (if c0 = '+' then phoneTail tail else phoneTail (c0 :: tail)) = true
      rw [if_neg (fun hp => by subst hp; exact absurd hdig (by decide))]
      exact ht
    · exact hpre

theorem findPhone_first : ∀ (cs : List Char) (s : String), findPhone cs = some s →
    ∃ u v, u ++ s.data ++ v = cs ∧ phoneAt (s.data ++ v) = some s.data ∧
      ∀ q, q <:+ cs → (s.data ++ v).length < q.length → phoneAt q = none := by
  intro cs
  induction cs with
  | nil => intro s h; simp [findPhone] at h
  | cons c rest ih =>
    intro s h
    rw [findPhone] at h
    split at h
    · rename_i m hat
      injection h with hs
      subst hs
      obtain ⟨v, hv⟩ := (phoneAt_spec (c :: rest) m hat).2
      refine ⟨[], v, ?_, ?_, ?_⟩
      · rw [List.nil_append]
        exact hv
      · show phoneAt (m ++ v) = some m
        rw [hv]
        exact hat
      · intro q hq hlen
        exfalso
        have h1 : q.length ≤ (c :: rest).length := hq.length_le
        have h2 : (m ++ v).length = (c :: rest).length := by rw [hv]
        have h3 : ((String.mk m).data ++ v).length = (m ++ v).length := rfl
        omega
    · rename_i hat
      obtain ⟨u, v, huv, hmat, hnone⟩ := ih s h
      refine ⟨c :: u, v, congrArg (List.cons c) huv, hmat, ?_⟩
      intro q hq hlen
      rcases List.suffix_cons_iff.mp hq with rfl | hq2
      · exact hat
      · exact hnone q hq2 hlen

/-- Claim C8 (amended): the Email field, when not the sentinel, is the
first match of the email pattern: it occurs in the input at a position where
the per-position matcher succeeds on it, while every strictly earlier start
position (every strictly longer suffix of the input) admits no match, and it
has shape local-part@domain over the class of word characters, dots and
hyphens.  Likewise the Phone field, when not the sentinel, is the first
match of the phone pattern: optional `+`, a digit, at least eight further
characters each a digit, hyphen or whitespace, and a final digit.  With no
match the field is the sentinel. -/
theorem extract_c8_amended :
    ∀ (text : String) (ner : String → List Entity),
    ((extract_details text ner).email = "Not found" ∨
      (emailShapeB (extract_details text ner).email = true ∧
        ∃ u v, u ++ (extract_details text ner).email.data ++ v = text.data ∧
          emailAt ((extract_details text ner).email.data ++ v) =
            some (extract_details text ner).email.data ∧
          ∀ q, q <:+ text.data →
            ((extract_details text ner).email.data ++ v).length < q.length →
            emailAt q = none)) ∧
    ((extract_details text ner).phone = "Not found" ∨
      (phoneShapeB (extract_details text ner).phone = true ∧
        ∃ u v, u ++ (extract_details text ner).phone.data ++ v = text.data ∧
          phoneAt ((extract_details text ner).phone.data ++ v) =
            some (extract_details text ner).phone.data ∧
          ∀ q, q <:+ text.data →
            ((extract_details text ner).phone.data ++ v).length < q.length →
            phoneAt q = none)) := by
  intro text ner
  constructor
  · have hself : (extract_details text ner).email = (findEmail text.data).getD "Not found" :=
      rfl
    rcases he : findEmail text.data with _ | s
    · left
      rw [hself, he]
      rfl
    · right
      rw [hself, he]
      obtain ⟨u, v, huv, hmat, hnone⟩ := findEmail_first text.data s he
      exact ⟨(emailAt_spec _ _ hmat).1, u, v, huv, hmat, hnone⟩
  · have hself : (extract_details text ner).phone = (findPhone text.data).getD "Not found" :=
      rfl
    rcases hp : findPhone text.data with _ | s
    · left
      rw [hself, hp]
      rfl
    · right
      rw [hself, hp]
      obtain ⟨u, v, huv, hmat, hnone⟩ := findPhone_first text.data s hp
      exact ⟨(phoneAt_spec _ _ hmat).1, u, v, huv, hmat, hnone⟩

/-- Counterexample to claim C8 as stated: on the input "+1--------2" the
extracted Phone is "+1--------2", a string containing only two digits — the
`{8,}` of the pattern counts characters (here hyphens), not further digits
as the claim reads. -/
theorem extract_c8_counterexample :
    (extract_details "+1--------2" nerNone).phone = "+1--------2" ∧
    List.countP (fun c => c.isDigit) "+1--------2".data = 2 :=
  ⟨by decide, by decide⟩
